import Mathlib

/-!
The changed-file lister `git-files-changed`.

A shallow embedding of `src/git-files-changed/main.go` (`Files`, `diff`,
`treeFromRef`).  The program is a thin layer over the go-git library, so the
library's operations are a record of functions (`GoGit`) the program is
parameterised by; the orchestration, the error wrapping and the mapping of
change records to paths are translated from the source line by line.

For the properties that depend on what the tree diff computes, a reference
model of the library (`gogit`) over flattened trees is given further down.
-/

set_option autoImplicit false

namespace GitFilesChanged

/-! ## Go values -/

/-- A Go `error` value.  `base` is an error made by a library; `wrapError` is what
`fmt.Errorf` builds for a format with one `%w` verb: the formatted message and
the wrapped error. -/
inductive GoError where
  | base (msg : String)
  | wrapError (msg : String) (err : GoError)
  deriving DecidableEq, Repr

/-- The method `Error()` of an error: its message. -/
def GoError.Error : GoError → String
  | .base msg => msg
  | .wrapError msg _ => msg

/-- The method `Unwrap()` as `errors.Unwrap` sees it: the wrapped error, if any. -/
def GoError.Unwrap : GoError → Option GoError
  | .base _ => none
  | .wrapError _ err => some err

/-- The call `fmt.Errorf(context + "%w", err)`: the message is the context followed by
the message of `err`, and the result wraps `err`. -/
def Errorf (context : String) (err : GoError) : GoError :=
  .wrapError (context ++ err.Error) err

/-- A `context.Context`, reduced to what `Err()` reports: `none` while it is live,
the cancellation error once it is canceled. -/
structure Context where
  Err : Option GoError
  deriving DecidableEq, Repr

/-! ## go-git values -/

/-- A `plumbing.Hash`, abstracted to a number. -/
abbrev Hash := Nat

/-- A `filemode.FileMode`. -/
abbrev FileMode := Nat

/-- An `object.TreeEntry`.  Trees are flattened here, so `Name` is the full path of a
file. -/
structure TreeEntry where
  Name : String
  Mode : FileMode
  Hash : Hash
  deriving DecidableEq, Repr

/-- An `object.Tree`, flattened to its files.  As in a git tree object, no two entries
share a path. -/
structure Tree where
  Entries : List TreeEntry
  unique : (Entries.map (fun e => e.Name)).Nodup
  deriving DecidableEq, Repr

/-- An `object.Commit`: `tree` is the tree object the commit points to, `none` when
that object cannot be loaded. -/
structure Commit where
  tree : Option Tree
  deriving DecidableEq, Repr

/-- A `git.Repository`: the revisions it resolves and its commit objects. -/
structure Repository where
  revisions : List (String × Hash)
  commits : List (Hash × Commit)
  deriving DecidableEq, Repr

/-- The local filesystem as far as the program reads it: the directories that hold a
repository. -/
abbrev FS := List (String × Repository)

/-- An `object.ChangeEntry`: the full path, the tree the entry was found in (a nil
pointer in the zero value) and the entry itself. -/
structure ChangeEntry where
  Name : String
  Tree : Option Tree
  TreeEntry : TreeEntry
  deriving DecidableEq, Repr

/-- An `object.Change`. -/
structure Change where
  From : ChangeEntry
  To : ChangeEntry
  deriving DecidableEq, Repr

/-- The type `merkletrie.Action` is declared `type Action int`. -/
abbrev Action := Int

/-- The constant `merkletrie.Insert` (the constants start at `iota` 1). -/
def merkletrie.Insert : Action := 1

/-- The constant `merkletrie.Delete`. -/
def merkletrie.Delete : Action := 2

/-- The constant `merkletrie.Modify`. -/
def merkletrie.Modify : Action := 3

/-- The operations of go-git that the program calls.  Each returns a value or an
error, as the Go functions do. -/
structure GoGit where
  PlainOpen : FS → String → Except GoError Repository
  ResolveRevision : Repository → String → Except GoError Hash
  CommitObject : Repository → Hash → Except GoError Commit
  CommitTree : Commit → Except GoError Tree
  DiffTree : Tree → Tree → Except GoError (List Change)
  ChangeAction : Change → Except GoError Action

/-- A handle on a Dagger directory: the repository it holds, if any. -/
structure Directory where
  content : Option Repository
  deriving DecidableEq, Repr

/-- The one operation of the Dagger SDK that the program calls: `Export` writes the
directory to a path of the local filesystem and returns the path written. -/
structure Dagger where
  Export : Context → Directory → String → FS → Except GoError (String × FS)

/-! ## The program -/

/-- One call into the library, as recorded in the order the program makes them. -/
inductive Call where
  | PlainOpen (dir : String)
  | ResolveRevision (ref : String)
  | CommitObject (hash : Hash)
  | CommitTree
  | DiffTree
  | ChangeAction
  deriving DecidableEq, Repr

/-- The function `treeFromRef` of main.go, lines 89-101: the tree of the commit a
revision resolves to, together with the library calls made. -/
def treeFromRef (L : GoGit) (repo : Repository) (ref : String) :
    List Call × Except GoError Tree :=
  match L.ResolveRevision repo ref with
  | .error err => ([.ResolveRevision ref], .error err)
  | .ok hash =>
    match L.CommitObject repo hash with
    | .error err => ([.ResolveRevision ref, .CommitObject hash], .error err)
    | .ok commit =>
      ([.ResolveRevision ref, .CommitObject hash, .CommitTree], L.CommitTree commit)

/-- What a call of `diff` gives back: the two Go results (`files` is the path list,
the nil slice being the empty list; `err` is the error, `none` for nil) and the
library calls made, in order. -/
structure DiffResult where
  files : List String
  err : Option GoError
  calls : List Call
  deriving DecidableEq, Repr

/-- The body of the `switch` of main.go, lines 72-81: the variable `file` starts as the
empty string and is assigned in the three cases; there is no default case. -/
def fileOf (action : Action) (ch : Change) : String :=
  if action = merkletrie.Insert then ch.To.Name
  else if action = merkletrie.Modify then ch.To.Name
  else if action = merkletrie.Delete then ch.From.Name
  else ""

/-- The loop of main.go, lines 66-84, over the change records still to visit; `files`
and `calls` are what has been accumulated so far. -/
def diffLoop (L : GoGit) : List Change → List String → List Call → DiffResult
  | [], files, calls => ⟨files, none, calls⟩
  | ch :: rest, files, calls =>
    match L.ChangeAction ch with
    | .error err =>
      ⟨[], some (Errorf "error getting change action: " err), calls ++ [.ChangeAction]⟩
    | .ok action =>
      diffLoop L rest (files ++ [fileOf action ch]) (calls ++ [.ChangeAction])

/-- The function `diff` of main.go, lines 44-87.  The context `ctx` is a parameter of
the Go function and is not used in its body. -/
def diff (L : GoGit) (_ctx : Context) (fs : FS) (dir : String) (headRef baseRef : String) :
    DiffResult :=
  match L.PlainOpen fs dir with
  | .error err => ⟨[], some (Errorf "error opening repository: " err), [.PlainOpen dir]⟩
  | .ok repo =>
    match treeFromRef L repo headRef with
    | (c1, .error err) =>
      ⟨[], some (Errorf "error getting tree from head ref: " err), .PlainOpen dir :: c1⟩
    | (c1, .ok headTree) =>
      match treeFromRef L repo baseRef with
      | (c2, .error err) =>
        ⟨[], some (Errorf "error getting tree from base ref: " err), .PlainOpen dir :: (c1 ++ c2)⟩
      | (c2, .ok baseTree) =>
        match L.DiffTree headTree baseTree with
        | .error err =>
          ⟨[], some (Errorf "error diffing trees: " err),
            .PlainOpen dir :: (c1 ++ c2 ++ [.DiffTree])⟩
        | .ok changes =>
          diffLoop L changes [] (.PlainOpen dir :: (c1 ++ c2 ++ [.DiffTree]))

/-- The method `Files` of main.go, lines 19-42: export the source directory to
`/repo`, then `diff` there.  The two Go results are returned as a pair. -/
def Files (D : Dagger) (L : GoGit) (ctx : Context) (fs : FS) (source : Directory)
    (headRef baseRef : String) : List String × Option GoError :=
  let repoDir := "/repo"
  match D.Export ctx source repoDir fs with
  | .error err => ([], some err)
  | .ok (_, fs1) =>
    let r := diff L ctx fs1 repoDir headRef baseRef
    match r.err with
    | some err => ([], some err)
    | none => (r.files, none)

/-! ## A reference model of the library

go-git is not part of the program's source.  The definitions below model the six
operations the program calls, over flattened trees, so that the properties that
depend on what a tree diff contains can be stated.  The order in which the real
library enumerates change records is not modelled. -/

/-- The zero value of `object.ChangeEntry`, which go-git calls `empty`. -/
def ChangeEntry.empty : ChangeEntry := ⟨"", none, ⟨"", 0, 0⟩⟩

/-- The change entry of a file `e` found in the tree `t`. -/
def changeEntry (t : Tree) (e : TreeEntry) : ChangeEntry := ⟨e.Name, some t, e⟩

/-- The entry a tree has at a path, if any. -/
def Tree.lookup (t : Tree) (path : String) : Option TreeEntry :=
  t.Entries.find? (fun e => decide (e.Name = path))

/-- Modelled from the spec: the tree diff of the version-control library (go-git's
`object.DiffTree(a, b)`, which is not in the source tree): one change record per
path whose presence, content hash or type (file mode) differs between the two trees.
The library computes the changes that turn its first argument into its second: a
path only in `a` is a deletion and carries a "from" entry, a path only in `b` is an
insertion and carries a "to" entry, a path in both with a different hash or mode is
a modification and carries both.  There is no rename detection. -/
def DiffTree (a b : Tree) : List Change :=
  a.Entries.filterMap (fun e =>
    match b.lookup e.Name with
    | none => some ⟨changeEntry a e, ChangeEntry.empty⟩
    | some e2 =>
      if e.Hash = e2.Hash ∧ e.Mode = e2.Mode then none
      else some ⟨changeEntry a e, changeEntry b e2⟩) ++
  b.Entries.filterMap (fun e =>
    match a.lookup e.Name with
    | none => some ⟨ChangeEntry.empty, changeEntry b e⟩
    | some _ => none)

/-- Modelled from the spec: the action classification of a change record (go-git's
`Change.Action`, which is not in the source tree): a record with no "from" entry is
an insertion, one with no "to" entry is a deletion, one with both is a
modification, and a record with neither is malformed. -/
def Change.Action (c : Change) : Except GoError Action :=
  if c.From = ChangeEntry.empty ∧ c.To = ChangeEntry.empty then
    .error (.base "malformed change: empty from and to")
  else if c.From = ChangeEntry.empty then .ok merkletrie.Insert
  else if c.To = ChangeEntry.empty then .ok merkletrie.Delete
  else .ok merkletrie.Modify

/-- Modelled from the spec: the repository operations of the version-control
library (go-git's `PlainOpen`, `ResolveRevision`, `CommitObject` and `Commit.Tree`,
which are not in the source tree): opening fails when the directory holds no
repository, resolution fails when a reference names no commit or the commit's tree
cannot be loaded. -/
def gogit : GoGit where
  PlainOpen fs dir :=
    match fs.lookup dir with
    | some repo => .ok repo
    | none => .error (.base "repository does not exist")
  ResolveRevision repo rev :=
    match repo.revisions.lookup rev with
    | some hash => .ok hash
    | none => .error (.base "reference not found")
  CommitObject repo hash :=
    match repo.commits.lookup hash with
    | some commit => .ok commit
    | none => .error (.base "object not found")
  CommitTree commit :=
    match commit.tree with
    | some t => .ok t
    | none => .error (.base "object not found")
  DiffTree a b := .ok (DiffTree a b)
  ChangeAction := Change.Action

/-- A path is present in a tree. -/
def Tree.has (t : Tree) (path : String) : Prop := (t.lookup path).isSome = true

instance (t : Tree) (path : String) : Decidable (t.has path) :=
  inferInstanceAs (Decidable ((t.lookup path).isSome = true))

/-! ## Example data -/

/-- The tree of commit A of the spec's scenario: `README.md` and `src/a.go`. -/
def treeA : Tree := ⟨[⟨"README.md", 0o100644, 11⟩, ⟨"src/a.go", 0o100644, 21⟩], by decide⟩

/-- The tree of commit B of the spec's scenario: `src/a.go` edited, `README.md`
deleted, `src/b.go` added. -/
def treeB : Tree := ⟨[⟨"src/a.go", 0o100644, 22⟩, ⟨"src/b.go", 0o100644, 31⟩], by decide⟩

/-- The repository of the spec's scenario, with two more references: one whose
commit object is missing and one whose commit has no loadable tree. -/
def repoAB : Repository :=
  ⟨[("A", 1), ("B", 2), ("main", 1), ("HEAD", 2), ("orphan", 3), ("treeless", 4)],
   [(1, ⟨some treeA⟩), (2, ⟨some treeB⟩), (4, ⟨none⟩)]⟩

/-- A filesystem with the scenario's repository at `/repo`. -/
def fsAB : FS := [("/repo", repoAB)]

/-- A live context. -/
def background : Context := ⟨none⟩

/-- A context that has been canceled. -/
def canceled : Context := ⟨some (.base "context canceled")⟩

/-- A library that differs from the model in its tree diff only, which hands back
the given change records. -/
def gogitWithChanges (cs : List Change) : GoGit :=
  { gogit with DiffTree := fun _ _ => .ok cs }

/-- A library that differs from the model in its tree diff only, which fails. -/
def gogitDiffFails : GoGit :=
  { gogit with DiffTree := fun _ _ => .error (.base "object not found") }

/-- A change record with neither a "from" nor a "to" entry. -/
def malformed : Change := ⟨ChangeEntry.empty, ChangeEntry.empty⟩

/-- The record the model's tree diff gives for `src/b.go`, which is in `treeB` only,
when `treeB` is its first argument. -/
def deletion : Change := ⟨changeEntry treeB ⟨"src/b.go", 0o100644, 31⟩, ChangeEntry.empty⟩

/-- A tree with one regular file. -/
def treePlain : Tree := ⟨[⟨"run.sh", 0o100644, 5⟩], by decide⟩

/-- The same file with the same content, made executable. -/
def treeExec : Tree := ⟨[⟨"run.sh", 0o100755, 5⟩], by decide⟩

/-- A repository whose `main` has `treePlain` and whose `HEAD` has `treeExec`. -/
def repoMode : Repository :=
  ⟨[("main", 1), ("HEAD", 2)], [(1, ⟨some treePlain⟩), (2, ⟨some treeExec⟩)]⟩

/-- A filesystem with `repoMode` at `/repo`. -/
def fsMode : FS := [("/repo", repoMode)]

/-- An export that writes the directory's repository at the path, and fails with the
context's error when the context is canceled. -/
def dagger : Dagger where
  Export ctx source path fs :=
    match ctx.Err with
    | some err => .error err
    | none =>
      match source.content with
      | some repo => .ok (path, (path, repo) :: fs)
      | none => .ok (path, fs)

/-! ## Notions used in the statements -/

/-- The five steps of `diff`. -/
inductive Step where
  | openRepo
  | resolveHead
  | resolveBase
  | diffTrees
  | classify
  deriving DecidableEq, Repr

/-- The context message `diff` puts in front of the error of each step. -/
def Step.context : Step → String
  | .openRepo => "error opening repository: "
  | .resolveHead => "error getting tree from head ref: "
  | .resolveBase => "error getting tree from base ref: "
  | .diffTrees => "error diffing trees: "
  | .classify => "error getting change action: "

/-- The four steps before the loop succeed and the tree diff returns `cs`. -/
def treeDiffReturns (L : GoGit) (fs : FS) (dir headRef baseRef : String)
    (cs : List Change) : Prop :=
  ∃ repo headTree baseTree,
    L.PlainOpen fs dir = .ok repo ∧
    (treeFromRef L repo headRef).2 = .ok headTree ∧
    (treeFromRef L repo baseRef).2 = .ok baseTree ∧
    L.DiffTree headTree baseTree = .ok cs

/-- The path of the entry a change record carries: that of its "from" entry, or of its
"to" entry when it has no "from" entry. -/
def Change.path (ch : Change) : String :=
  if ch.From = ChangeEntry.empty then ch.To.Name else ch.From.Name

/-- The references resolved by a sequence of calls, in order. -/
def resolutions : List Call → List String
  | [] => []
  | .ResolveRevision ref :: rest => ref :: resolutions rest
  | _ :: rest => resolutions rest

/-- The stage of `diff` a call belongs to: opening, resolving, diffing, classifying. -/
def Call.stage : Call → Nat
  | .PlainOpen _ => 0
  | .ResolveRevision _ => 1
  | .CommitObject _ => 1
  | .CommitTree => 1
  | .DiffTree => 2
  | .ChangeAction => 3

/-! ## Lemmas about the loop and the steps before it -/

theorem diffLoop_all_ok (L : GoGit) (cs : List Change) (files : List String)
    (calls : List Call) (h : ∀ ch ∈ cs, ∃ a, L.ChangeAction ch = .ok a) :
    ∃ out, out.length = cs.length ∧
      (∀ i (hi : i < cs.length), ∃ a, L.ChangeAction (cs.get ⟨i, hi⟩) = .ok a ∧
        out[i]? = some (fileOf a (cs.get ⟨i, hi⟩))) ∧
      diffLoop L cs files calls =
        ⟨files ++ out, none, calls ++ List.replicate cs.length .ChangeAction⟩ := by
  induction cs generalizing files calls with
  | nil => exact ⟨[], rfl, fun i hi => absurd hi (Nat.not_lt_zero i), by simp [diffLoop]⟩
  | cons ch rest ih =>
    obtain ⟨a, ha⟩ := h ch (List.mem_cons_self ch rest)
    obtain ⟨out, hlen, hget, heq⟩ :=
      ih (files ++ [fileOf a ch]) (calls ++ [.ChangeAction])
        (fun c hc => h c (List.mem_cons_of_mem ch hc))
    refine ⟨fileOf a ch :: out, by simp [hlen], ?_, ?_⟩
    · intro i hi
      cases i with
      | zero => exact ⟨a, ha, by simp⟩
      | succ j => simpa using hget j (by simpa using hi)
    · simp [diffLoop, ha, heq, List.replicate_succ]

theorem diffLoop_first_failure (L : GoGit) (pre : List Change) (ch : Change)
    (post : List Change) (e : GoError) (files : List String) (calls : List Call)
    (hpre : ∀ c ∈ pre, ∃ a, L.ChangeAction c = .ok a) (hch : L.ChangeAction ch = .error e) :
    diffLoop L (pre ++ ch :: post) files calls =
      ⟨[], some (Errorf "error getting change action: " e),
        calls ++ List.replicate (pre.length + 1) .ChangeAction⟩ := by
  induction pre generalizing files calls with
  | nil => simp [diffLoop, hch]
  | cons c rest ih =>
    obtain ⟨a, ha⟩ := hpre c (List.mem_cons_self c rest)
    have := ih (files ++ [fileOf a c]) (calls ++ [.ChangeAction])
      (fun x hx => hpre x (List.mem_cons_of_mem c hx))
    simp [diffLoop, ha, this, List.replicate_succ]

theorem diffLoop_cases (L : GoGit) (cs : List Change) :
    (∀ ch ∈ cs, ∃ a, L.ChangeAction ch = .ok a) ∨
    ∃ pre ch post e, cs = pre ++ ch :: post ∧
      (∀ c ∈ pre, ∃ a, L.ChangeAction c = .ok a) ∧ L.ChangeAction ch = .error e := by
  induction cs with
  | nil => exact Or.inl (by simp)
  | cons c rest ih =>
    cases hc : L.ChangeAction c with
    | error e => exact Or.inr ⟨[], c, rest, e, rfl, by simp, hc⟩
    | ok a =>
      rcases ih with hall | ⟨pre, ch, post, e, hsplit, hpre, hch⟩
      · left
        intro x hx
        rcases List.mem_cons.mp hx with rfl | hx
        · exact ⟨a, hc⟩
        · exact hall x hx
      · right
        refine ⟨c :: pre, ch, post, e, by simp [hsplit], ?_, hch⟩
        intro x hx
        rcases List.mem_cons.mp hx with rfl | hx
        · exact ⟨a, hc⟩
        · exact hpre x hx

theorem diff_reaches_loop (L : GoGit) (ctx : Context) (fs : FS) (dir headRef baseRef : String)
    (repo : Repository) (headTree baseTree : Tree) (cs : List Change)
    (h1 : L.PlainOpen fs dir = .ok repo)
    (h2 : (treeFromRef L repo headRef).2 = .ok headTree)
    (h3 : (treeFromRef L repo baseRef).2 = .ok baseTree)
    (h4 : L.DiffTree headTree baseTree = .ok cs) :
    diff L ctx fs dir headRef baseRef =
      diffLoop L cs []
        (.PlainOpen dir ::
          ((treeFromRef L repo headRef).1 ++ (treeFromRef L repo baseRef).1 ++ [.DiffTree])) := by
  rcases hh : treeFromRef L repo headRef with ⟨c1, r1⟩
  rcases hb : treeFromRef L repo baseRef with ⟨c2, r2⟩
  rw [hh] at h2
  rw [hb] at h3
  simp only at h2 h3
  subst h2 h3
  simp [diff, h1, hh, hb, h4]

theorem diff_open_error (L : GoGit) (ctx : Context) (fs : FS) (dir headRef baseRef : String)
    (e : GoError) (h1 : L.PlainOpen fs dir = .error e) :
    diff L ctx fs dir headRef baseRef =
      ⟨[], some (Errorf "error opening repository: " e), [.PlainOpen dir]⟩ := by
  simp [diff, h1]

theorem diff_head_error (L : GoGit) (ctx : Context) (fs : FS) (dir headRef baseRef : String)
    (repo : Repository) (e : GoError) (h1 : L.PlainOpen fs dir = .ok repo)
    (h2 : (treeFromRef L repo headRef).2 = .error e) :
    diff L ctx fs dir headRef baseRef =
      ⟨[], some (Errorf "error getting tree from head ref: " e),
        .PlainOpen dir :: (treeFromRef L repo headRef).1⟩ := by
  rcases hh : treeFromRef L repo headRef with ⟨c1, r1⟩
  rw [hh] at h2
  simp only at h2
  subst h2
  simp [diff, h1, hh]

theorem diff_base_error (L : GoGit) (ctx : Context) (fs : FS) (dir headRef baseRef : String)
    (repo : Repository) (headTree : Tree) (e : GoError) (h1 : L.PlainOpen fs dir = .ok repo)
    (h2 : (treeFromRef L repo headRef).2 = .ok headTree)
    (h3 : (treeFromRef L repo baseRef).2 = .error e) :
    diff L ctx fs dir headRef baseRef =
      ⟨[], some (Errorf "error getting tree from base ref: " e),
        .PlainOpen dir :: ((treeFromRef L repo headRef).1 ++ (treeFromRef L repo baseRef).1)⟩ := by
  rcases hh : treeFromRef L repo headRef with ⟨c1, r1⟩
  rcases hb : treeFromRef L repo baseRef with ⟨c2, r2⟩
  rw [hh] at h2
  rw [hb] at h3
  simp only at h2 h3
  subst h2 h3
  simp [diff, h1, hh, hb]

theorem diff_difftree_error (L : GoGit) (ctx : Context) (fs : FS)
    (dir headRef baseRef : String) (repo : Repository) (headTree baseTree : Tree)
    (e : GoError) (h1 : L.PlainOpen fs dir = .ok repo)
    (h2 : (treeFromRef L repo headRef).2 = .ok headTree)
    (h3 : (treeFromRef L repo baseRef).2 = .ok baseTree)
    (h4 : L.DiffTree headTree baseTree = .error e) :
    diff L ctx fs dir headRef baseRef =
      ⟨[], some (Errorf "error diffing trees: " e),
        .PlainOpen dir ::
          ((treeFromRef L repo headRef).1 ++ (treeFromRef L repo baseRef).1 ++ [.DiffTree])⟩ := by
  rcases hh : treeFromRef L repo headRef with ⟨c1, r1⟩
  rcases hb : treeFromRef L repo baseRef with ⟨c2, r2⟩
  rw [hh] at h2
  rw [hb] at h3
  simp only at h2 h3
  subst h2 h3
  simp [diff, h1, hh, hb, h4]

/-- Every run of `diff` is one of five kinds: one of the four steps before the loop
fails, or the loop is reached. -/
theorem diff_cases (L : GoGit) (fs : FS) (dir headRef baseRef : String) :
    (∃ e, L.PlainOpen fs dir = .error e) ∨
    (∃ repo e, L.PlainOpen fs dir = .ok repo ∧ (treeFromRef L repo headRef).2 = .error e) ∨
    (∃ repo headTree e, L.PlainOpen fs dir = .ok repo ∧
      (treeFromRef L repo headRef).2 = .ok headTree ∧
      (treeFromRef L repo baseRef).2 = .error e) ∨
    (∃ repo headTree baseTree e, L.PlainOpen fs dir = .ok repo ∧
      (treeFromRef L repo headRef).2 = .ok headTree ∧
      (treeFromRef L repo baseRef).2 = .ok baseTree ∧
      L.DiffTree headTree baseTree = .error e) ∨
    (∃ cs, treeDiffReturns L fs dir headRef baseRef cs) := by
  cases h1 : L.PlainOpen fs dir with
  | error e => exact Or.inl ⟨e, rfl⟩
  | ok repo =>
    right
    cases h2 : (treeFromRef L repo headRef).2 with
    | error e => exact Or.inl ⟨repo, e, rfl, h2⟩
    | ok headTree =>
      right
      cases h3 : (treeFromRef L repo baseRef).2 with
      | error e => exact Or.inl ⟨repo, headTree, e, rfl, h2, h3⟩
      | ok baseTree =>
        right
        cases h4 : L.DiffTree headTree baseTree with
        | error e => exact Or.inl ⟨repo, headTree, baseTree, e, rfl, h2, h3, h4⟩
        | ok cs => exact Or.inr ⟨cs, repo, headTree, baseTree, h1, h2, h3, h4⟩

theorem diff_of_treeDiffReturns (L : GoGit) (ctx : Context) (fs : FS)
    (dir headRef baseRef : String) (cs : List Change)
    (hcs : treeDiffReturns L fs dir headRef baseRef cs) :
    ∃ calls, diff L ctx fs dir headRef baseRef = diffLoop L cs [] calls := by
  obtain ⟨repo, headTree, baseTree, h1, h2, h3, h4⟩ := hcs
  exact ⟨_, diff_reaches_loop L ctx fs dir headRef baseRef repo headTree baseTree cs h1 h2 h3 h4⟩

theorem diffLoop_err_files (L : GoGit) (cs : List Change) (files : List String)
    (calls : List Call) (h : (diffLoop L cs files calls).err ≠ none) :
    (diffLoop L cs files calls).files = [] := by
  rcases diffLoop_cases L cs with hall | ⟨pre, ch, post, e, hsplit, hpre, hch⟩
  · obtain ⟨out, _, _, heq⟩ := diffLoop_all_ok L cs files calls hall
    rw [heq] at h
    exact absurd rfl h
  · rw [hsplit, diffLoop_first_failure L pre ch post e files calls hpre hch]

theorem diffLoop_ok_all (L : GoGit) (cs : List Change) (files : List String)
    (calls : List Call) (h : (diffLoop L cs files calls).err = none) :
    ∀ ch ∈ cs, ∃ a, L.ChangeAction ch = .ok a := by
  rcases diffLoop_cases L cs with hall | ⟨pre, ch, post, e, hsplit, hpre, hch⟩
  · exact hall
  · rw [hsplit, diffLoop_first_failure L pre ch post e files calls hpre hch] at h
    cases h

theorem diff_err_files (L : GoGit) (ctx : Context) (fs : FS) (dir headRef baseRef : String)
    (h : (diff L ctx fs dir headRef baseRef).err ≠ none) :
    (diff L ctx fs dir headRef baseRef).files = [] := by
  rcases diff_cases L fs dir headRef baseRef with
    ⟨e, h1⟩ | ⟨repo, e, h1, h2⟩ | ⟨repo, ht, e, h1, h2, h3⟩ |
    ⟨repo, ht, bt, e, h1, h2, h3, h4⟩ | ⟨cs, hcs⟩
  · rw [diff_open_error L ctx fs dir headRef baseRef e h1]
  · rw [diff_head_error L ctx fs dir headRef baseRef repo e h1 h2]
  · rw [diff_base_error L ctx fs dir headRef baseRef repo ht e h1 h2 h3]
  · rw [diff_difftree_error L ctx fs dir headRef baseRef repo ht bt e h1 h2 h3 h4]
  · obtain ⟨calls, heq⟩ := diff_of_treeDiffReturns L ctx fs dir headRef baseRef cs hcs
    rw [heq] at h ⊢
    exact diffLoop_err_files L cs [] calls h

theorem diff_ok_files (L : GoGit) (ctx : Context) (fs : FS) (dir headRef baseRef : String)
    (cs : List Change) (hcs : treeDiffReturns L fs dir headRef baseRef cs)
    (hok : (diff L ctx fs dir headRef baseRef).err = none) :
    (diff L ctx fs dir headRef baseRef).files.length = cs.length ∧
    ∀ i (hi : i < cs.length), ∃ a, L.ChangeAction (cs.get ⟨i, hi⟩) = .ok a ∧
      (diff L ctx fs dir headRef baseRef).files[i]? = some (fileOf a (cs.get ⟨i, hi⟩)) := by
  obtain ⟨calls, heq⟩ := diff_of_treeDiffReturns L ctx fs dir headRef baseRef cs hcs
  rw [heq] at hok ⊢
  obtain ⟨out, hlen, hget, hrun⟩ :=
    diffLoop_all_ok L cs [] calls (diffLoop_ok_all L cs [] calls hok)
  rw [hrun]
  simpa using ⟨hlen, hget⟩

theorem Files_export_error (D : Dagger) (L : GoGit) (ctx : Context) (fs : FS)
    (source : Directory) (headRef baseRef : String) (e : GoError)
    (hx : D.Export ctx source "/repo" fs = .error e) :
    Files D L ctx fs source headRef baseRef = ([], some e) := by
  simp [Files, hx]

theorem Files_export_ok (D : Dagger) (L : GoGit) (ctx : Context) (fs : FS)
    (source : Directory) (headRef baseRef : String) (p : String) (fs1 : FS)
    (hx : D.Export ctx source "/repo" fs = .ok (p, fs1)) :
    Files D L ctx fs source headRef baseRef =
      ((diff L ctx fs1 "/repo" headRef baseRef).files,
        (diff L ctx fs1 "/repo" headRef baseRef).err) := by
  simp only [Files, hx]
  cases hr : (diff L ctx fs1 "/repo" headRef baseRef).err with
  | none => rfl
  | some e =>
    have := diff_err_files L ctx fs1 "/repo" headRef baseRef (by simp [hr])
    simp [this]

/-! ## The claims -/

/-- C2: when `diff` succeeds, the string it returns for a change record whose action is
Insert or Modify is the record's "to" path, and for a record whose action is Delete
it is the record's "from" path; these are the strings the `switch` assigns in its
three cases. -/
theorem diff_emits_to_or_from_path (L : GoGit) (ctx : Context) (fs : FS)
    (dir headRef baseRef : String) (cs : List Change)
    (hcs : treeDiffReturns L fs dir headRef baseRef cs)
    (hok : (diff L ctx fs dir headRef baseRef).err = none)
    (i : Nat) (hi : i < cs.length) :
    ((L.ChangeAction (cs.get ⟨i, hi⟩) = .ok merkletrie.Insert ∨
        L.ChangeAction (cs.get ⟨i, hi⟩) = .ok merkletrie.Modify) →
      (diff L ctx fs dir headRef baseRef).files[i]? = some (cs.get ⟨i, hi⟩).To.Name) ∧
    (L.ChangeAction (cs.get ⟨i, hi⟩) = .ok merkletrie.Delete →
      (diff L ctx fs dir headRef baseRef).files[i]? = some (cs.get ⟨i, hi⟩).From.Name) ∧
    (∀ ch, fileOf merkletrie.Insert ch = ch.To.Name ∧ fileOf merkletrie.Modify ch = ch.To.Name ∧
      fileOf merkletrie.Delete ch = ch.From.Name) := by
  obtain ⟨a, ha, hfile⟩ := (diff_ok_files L ctx fs dir headRef baseRef cs hcs hok).2 i hi
  refine ⟨fun h => ?_, fun h => ?_, fun ch => ?_⟩
  · rcases h with h | h
    · rw [ha] at h
      cases h
      simpa [fileOf] using hfile
    · rw [ha] at h
      cases h
      simpa [fileOf, merkletrie.Modify, merkletrie.Insert] using hfile
  · rw [ha] at h
    cases h
    simpa [fileOf, merkletrie.Modify, merkletrie.Insert, merkletrie.Delete] using hfile
  · simp [fileOf, merkletrie.Modify, merkletrie.Insert, merkletrie.Delete]

/-- Witness for C2 on the spec's scenario (head B, base A): the second record is a
deletion and gives its "from" path, the third is an insertion and gives its "to"
path. -/
theorem diff_emits_to_or_from_path_witness :
    (diff gogit background fsAB "/repo" "B" "A").files[1]? = some "src/b.go" ∧
    (diff gogit background fsAB "/repo" "B" "A").files[2]? = some "README.md" :=
  ⟨(diff_emits_to_or_from_path gogit background fsAB "/repo" "B" "A" (DiffTree treeB treeA)
      ⟨repoAB, treeB, treeA, rfl, rfl, rfl, rfl⟩ (by decide) 1 (by decide)).2.1 rfl,
   (diff_emits_to_or_from_path gogit background fsAB "/repo" "B" "A" (DiffTree treeB treeA)
      ⟨repoAB, treeB, treeA, rfl, rfl, rfl, rfl⟩ (by decide) 2 (by decide)).1
      (Or.inl rfl)⟩

/-- C3: when the tree diff returns the records `cs` and `diff` succeeds, the result has
as many entries as `cs` and its i-th entry is the path emitted for the i-th record;
and when `cs` is empty, `diff` succeeds with the empty list. -/
theorem diff_maps_records_in_order (L : GoGit) (ctx : Context) (fs : FS)
    (dir headRef baseRef : String) (cs : List Change)
    (hcs : treeDiffReturns L fs dir headRef baseRef cs) :
    ((diff L ctx fs dir headRef baseRef).err = none →
      (diff L ctx fs dir headRef baseRef).files.length = cs.length ∧
      ∀ i (hi : i < cs.length), ∃ a, L.ChangeAction (cs.get ⟨i, hi⟩) = .ok a ∧
        (diff L ctx fs dir headRef baseRef).files[i]? = some (fileOf a (cs.get ⟨i, hi⟩))) ∧
    (cs = [] →
      (diff L ctx fs dir headRef baseRef).err = none ∧
      (diff L ctx fs dir headRef baseRef).files = []) := by
  refine ⟨fun hok => diff_ok_files L ctx fs dir headRef baseRef cs hcs hok, fun hnil => ?_⟩
  subst hnil
  obtain ⟨calls, heq⟩ := diff_of_treeDiffReturns L ctx fs dir headRef baseRef [] hcs
  rw [heq]
  simp [diffLoop]

/-- Witness for C3 on the spec's scenario: three records, three paths, and an empty
change list (a commit against itself) gives the empty result. -/
theorem diff_maps_records_in_order_witness :
    (diff gogit background fsAB "/repo" "B" "A").files.length = 3 ∧
    ((diff gogit background fsAB "/repo" "B" "B").err = none ∧
      (diff gogit background fsAB "/repo" "B" "B").files = []) :=
  ⟨((diff_maps_records_in_order gogit background fsAB "/repo" "B" "A" (DiffTree treeB treeA)
      ⟨repoAB, treeB, treeA, rfl, rfl, rfl, rfl⟩).1 (by decide)).1,
   (diff_maps_records_in_order gogit background fsAB "/repo" "B" "B" []
      ⟨repoAB, treeB, treeB, rfl, rfl, rfl, rfl⟩).2 rfl⟩

/-- C4: whenever `diff` returns an error its path list is empty, and likewise for
`Files`; in particular, when the action of a change record cannot be obtained after
earlier records gave their paths, the paths accumulated so far are not returned. -/
theorem error_returns_no_paths (D : Dagger) (L : GoGit) (ctx : Context) (fs : FS)
    (dir : String) (source : Directory) (headRef baseRef : String) :
    ((diff L ctx fs dir headRef baseRef).err ≠ none →
      (diff L ctx fs dir headRef baseRef).files = []) ∧
    ((Files D L ctx fs source headRef baseRef).2 ≠ none →
      (Files D L ctx fs source headRef baseRef).1 = []) ∧
    (∀ pre ch post e, treeDiffReturns L fs dir headRef baseRef (pre ++ ch :: post) →
      (∀ c ∈ pre, ∃ a, L.ChangeAction c = .ok a) → L.ChangeAction ch = .error e →
      (diff L ctx fs dir headRef baseRef).files = [] ∧
      (diff L ctx fs dir headRef baseRef).err =
        some (Errorf "error getting change action: " e)) := by
  refine ⟨diff_err_files L ctx fs dir headRef baseRef, ?_, ?_⟩
  · intro h
    cases hx : D.Export ctx source "/repo" fs with
    | error e => rw [Files_export_error D L ctx fs source headRef baseRef e hx]
    | ok v =>
      rw [Files_export_ok D L ctx fs source headRef baseRef v.1 v.2 hx] at h ⊢
      exact diff_err_files L ctx v.2 "/repo" headRef baseRef h
  · intro pre ch post e hcs hpre hch
    obtain ⟨calls, heq⟩ :=
      diff_of_treeDiffReturns L ctx fs dir headRef baseRef (pre ++ ch :: post) hcs
    rw [heq, diffLoop_first_failure L pre ch post e [] calls hpre hch]
    exact ⟨rfl, rfl⟩

/-- Witness for C4: the tree diff hands back a deletion followed by a malformed record;
the path of the deletion has been accumulated when the second action fails, and no
path is returned. -/
theorem error_returns_no_paths_witness :
    (diff (gogitWithChanges [deletion, malformed, deletion]) background fsAB "/repo" "B" "A").files
        = [] ∧
    (diff (gogitWithChanges [deletion, malformed, deletion]) background fsAB "/repo" "B" "A").err
        = some (Errorf "error getting change action: "
            (.base "malformed change: empty from and to")) :=
  (error_returns_no_paths dagger (gogitWithChanges [deletion, malformed, deletion]) background
      fsAB "/repo" ⟨none⟩ "B" "A").2.2 [deletion] malformed [deletion]
    (.base "malformed change: empty from and to")
    ⟨repoAB, treeB, treeA, rfl, rfl, rfl, rfl⟩
    (fun c hc => by
      rw [List.mem_singleton] at hc
      subst hc
      exact ⟨merkletrie.Delete, rfl⟩)
    rfl

/-- C5: for each of the five steps of `diff`, when that step fails with the library
error `e` the error `diff` returns is `e` wrapped under the step's context message:
unwrapping gives `e` back and the message is the context followed by the message of
`e`; `treeFromRef` hands on the library's error as it is; and the messages of two
different steps never coincide, so the message alone tells the step. -/
theorem diff_wraps_step_error (L : GoGit) (ctx : Context) (fs : FS)
    (dir headRef baseRef : String) :
    (∀ e, L.PlainOpen fs dir = .error e →
      (diff L ctx fs dir headRef baseRef).err = some (Errorf Step.openRepo.context e)) ∧
    (∀ repo e, L.PlainOpen fs dir = .ok repo →
      (treeFromRef L repo headRef).2 = .error e →
      (diff L ctx fs dir headRef baseRef).err = some (Errorf Step.resolveHead.context e)) ∧
    (∀ repo headTree e, L.PlainOpen fs dir = .ok repo →
      (treeFromRef L repo headRef).2 = .ok headTree →
      (treeFromRef L repo baseRef).2 = .error e →
      (diff L ctx fs dir headRef baseRef).err = some (Errorf Step.resolveBase.context e)) ∧
    (∀ repo headTree baseTree e, L.PlainOpen fs dir = .ok repo →
      (treeFromRef L repo headRef).2 = .ok headTree →
      (treeFromRef L repo baseRef).2 = .ok baseTree →
      L.DiffTree headTree baseTree = .error e →
      (diff L ctx fs dir headRef baseRef).err = some (Errorf Step.diffTrees.context e)) ∧
    (∀ pre ch post e, treeDiffReturns L fs dir headRef baseRef (pre ++ ch :: post) →
      (∀ c ∈ pre, ∃ a, L.ChangeAction c = .ok a) → L.ChangeAction ch = .error e →
      (diff L ctx fs dir headRef baseRef).err = some (Errorf Step.classify.context e)) ∧
    (∀ repo ref e, (treeFromRef L repo ref).2 = .error e →
      L.ResolveRevision repo ref = .error e ∨
      (∃ hash, L.ResolveRevision repo ref = .ok hash ∧ L.CommitObject repo hash = .error e) ∨
      (∃ hash commit, L.ResolveRevision repo ref = .ok hash ∧
        L.CommitObject repo hash = .ok commit ∧ L.CommitTree commit = .error e)) ∧
    (∀ s e, (Errorf (Step.context s) e).Unwrap = some e ∧
      (Errorf (Step.context s) e).Error = Step.context s ++ e.Error) ∧
    (∀ s1 s2 e1 e2,
      (Errorf (Step.context s1) e1).Error = (Errorf (Step.context s2) e2).Error → s1 = s2) := by
  refine ⟨?_, ?_, ?_, ?_, ?_, ?_, ?_, ?_⟩
  · intro e h1
    rw [diff_open_error L ctx fs dir headRef baseRef e h1]
    rfl
  · intro repo e h1 h2
    rw [diff_head_error L ctx fs dir headRef baseRef repo e h1 h2]
    rfl
  · intro repo headTree e h1 h2 h3
    rw [diff_base_error L ctx fs dir headRef baseRef repo headTree e h1 h2 h3]
    rfl
  · intro repo headTree baseTree e h1 h2 h3 h4
    rw [diff_difftree_error L ctx fs dir headRef baseRef repo headTree baseTree e h1 h2 h3 h4]
    rfl
  · intro pre ch post e hcs hpre hch
    obtain ⟨calls, heq⟩ :=
      diff_of_treeDiffReturns L ctx fs dir headRef baseRef (pre ++ ch :: post) hcs
    rw [heq, diffLoop_first_failure L pre ch post e [] calls hpre hch]
    rfl
  · intro repo ref e h
    unfold treeFromRef at h
    cases hr : L.ResolveRevision repo ref with
    | error e1 =>
      rw [hr] at h
      simp only at h
      cases h
      exact Or.inl rfl
    | ok hash =>
      rw [hr] at h
      simp only at h
      cases hc : L.CommitObject repo hash with
      | error e1 =>
        rw [hc] at h
        simp only at h
        cases h
        exact Or.inr (Or.inl ⟨hash, rfl, hc⟩)
      | ok commit =>
        rw [hc] at h
        simp only at h
        exact Or.inr (Or.inr ⟨hash, commit, rfl, hc, h⟩)
  · intro s e
    exact ⟨rfl, rfl⟩
  · intro s1 s2 e1 e2 h
    simp only [Errorf, GoError.Error] at h
    have h2 := congrArg String.data h
    cases s1 <;> cases s2 <;> first | rfl | (simp [Step.context] at h2)

/-- Witness for C5: one failing run for each of the five steps. -/
theorem diff_wraps_step_error_witness :
    (diff gogit background fsAB "/x" "B" "A").err =
      some (Errorf "error opening repository: " (.base "repository does not exist")) ∧
    (diff gogit background fsAB "/repo" "nope" "A").err =
      some (Errorf "error getting tree from head ref: " (.base "reference not found")) ∧
    (diff gogit background fsAB "/repo" "B" "treeless").err =
      some (Errorf "error getting tree from base ref: " (.base "object not found")) ∧
    (diff gogitDiffFails background fsAB "/repo" "B" "A").err =
      some (Errorf "error diffing trees: " (.base "object not found")) ∧
    (diff (gogitWithChanges [deletion, malformed]) background fsAB "/repo" "B" "A").err =
      some (Errorf "error getting change action: "
        (.base "malformed change: empty from and to")) :=
  ⟨(diff_wraps_step_error gogit background fsAB "/x" "B" "A").1 _ rfl,
   (diff_wraps_step_error gogit background fsAB "/repo" "nope" "A").2.1 repoAB _ rfl rfl,
   (diff_wraps_step_error gogit background fsAB "/repo" "B" "treeless").2.2.1 repoAB treeB _
      rfl rfl rfl,
   (diff_wraps_step_error gogitDiffFails background fsAB "/repo" "B" "A").2.2.2.1
      repoAB treeB treeA _ rfl rfl rfl rfl,
   (diff_wraps_step_error (gogitWithChanges [deletion, malformed]) background fsAB "/repo"
      "B" "A").2.2.2.2.1 [deletion] malformed [] _
      ⟨repoAB, treeB, treeA, rfl, rfl, rfl, rfl⟩
      (fun c hc => by
        rw [List.mem_singleton] at hc
        subst hc
        exact ⟨merkletrie.Delete, rfl⟩)
      rfl⟩

theorem treeFromRef_calls (L : GoGit) (repo : Repository) (ref : String) :
    (treeFromRef L repo ref).1 = [.ResolveRevision ref] ∨
    (∃ hash, (treeFromRef L repo ref).1 = [.ResolveRevision ref, .CommitObject hash]) ∨
    (∃ hash, (treeFromRef L repo ref).1 =
      [.ResolveRevision ref, .CommitObject hash, .CommitTree]) := by
  unfold treeFromRef
  split
  · exact Or.inl rfl
  · split
    · exact Or.inr (Or.inl ⟨_, rfl⟩)
    · exact Or.inr (Or.inr ⟨_, rfl⟩)

theorem resolutions_append (xs ys : List Call) :
    resolutions (xs ++ ys) = resolutions xs ++ resolutions ys := by
  induction xs with
  | nil => rfl
  | cons x rest ih => cases x <;> simp [resolutions, ih]

theorem resolutions_replicate (k : Nat) :
    resolutions (List.replicate k Call.ChangeAction) = [] := by
  induction k with
  | zero => rfl
  | succ n ih => simp [List.replicate_succ, resolutions, ih]

theorem resolutions_treeFromRef (L : GoGit) (repo : Repository) (ref : String) :
    resolutions (treeFromRef L repo ref).1 = [ref] := by
  rcases treeFromRef_calls L repo ref with h | ⟨hash, h⟩ | ⟨hash, h⟩ <;>
    rw [h] <;> rfl

theorem stage_treeFromRef (L : GoGit) (repo : Repository) (ref : String) :
    ∀ c ∈ (treeFromRef L repo ref).1, c.stage = 1 := by
  intro c hc
  rcases treeFromRef_calls L repo ref with h | ⟨hash, h⟩ | ⟨hash, h⟩ <;>
    rw [h] at hc <;> simp at hc <;> rcases hc with rfl | rfl | rfl <;> rfl

theorem diffLoop_calls (L : GoGit) (cs : List Change) (files : List String)
    (calls : List Call) :
    ∃ k, (diffLoop L cs files calls).calls = calls ++ List.replicate k .ChangeAction := by
  rcases diffLoop_cases L cs with hall | ⟨pre, ch, post, e, hsplit, hpre, hch⟩
  · obtain ⟨out, _, _, heq⟩ := diffLoop_all_ok L cs files calls hall
    exact ⟨cs.length, by rw [heq]⟩
  · exact ⟨pre.length + 1, by
      rw [hsplit, diffLoop_first_failure L pre ch post e files calls hpre hch]⟩

/-- The calls of any run of `diff`: the opening, then a part of the calls that resolve
the head reference and the base reference, the tree diff and the classifications. -/
theorem diff_calls_shape (L : GoGit) (ctx : Context) (fs : FS) (dir headRef baseRef : String) :
    ∃ c1 c2 d k, (diff L ctx fs dir headRef baseRef).calls =
        .PlainOpen dir :: (c1 ++ c2 ++ d ++ List.replicate k .ChangeAction) ∧
      (∀ c ∈ c1, c.stage = 1) ∧ (∀ c ∈ c2, c.stage = 1) ∧ (d = [] ∨ d = [.DiffTree]) ∧
      (d = [] → k = 0) ∧
      ((resolutions c1 = [] ∧ resolutions c2 = []) ∨
        (resolutions c1 = [headRef] ∧ resolutions c2 = []) ∨
        (resolutions c1 = [headRef] ∧ resolutions c2 = [baseRef])) := by
  rcases diff_cases L fs dir headRef baseRef with
    ⟨e, h1⟩ | ⟨repo, e, h1, h2⟩ | ⟨repo, ht, e, h1, h2, h3⟩ |
    ⟨repo, ht, bt, e, h1, h2, h3, h4⟩ | ⟨cs, repo, ht, bt, h1, h2, h3, h4⟩
  · refine ⟨[], [], [], 0, ?_, by simp, by simp, Or.inl rfl, fun _ => rfl, Or.inl ⟨rfl, rfl⟩⟩
    rw [diff_open_error L ctx fs dir headRef baseRef e h1]
    rfl
  · refine ⟨(treeFromRef L repo headRef).1, [], [], 0, ?_, stage_treeFromRef L repo headRef,
      by simp, Or.inl rfl, fun _ => rfl,
      Or.inr (Or.inl ⟨resolutions_treeFromRef L repo headRef, rfl⟩)⟩
    rw [diff_head_error L ctx fs dir headRef baseRef repo e h1 h2]
    simp
  · refine ⟨(treeFromRef L repo headRef).1, (treeFromRef L repo baseRef).1, [], 0, ?_,
      stage_treeFromRef L repo headRef, stage_treeFromRef L repo baseRef, Or.inl rfl,
      fun _ => rfl,
      Or.inr (Or.inr ⟨resolutions_treeFromRef L repo headRef,
        resolutions_treeFromRef L repo baseRef⟩)⟩
    rw [diff_base_error L ctx fs dir headRef baseRef repo ht e h1 h2 h3]
    simp
  · refine ⟨(treeFromRef L repo headRef).1, (treeFromRef L repo baseRef).1, [.DiffTree], 0, ?_,
      stage_treeFromRef L repo headRef, stage_treeFromRef L repo baseRef, Or.inr rfl,
      (fun h => by cases h),
      Or.inr (Or.inr ⟨resolutions_treeFromRef L repo headRef,
        resolutions_treeFromRef L repo baseRef⟩)⟩
    rw [diff_difftree_error L ctx fs dir headRef baseRef repo ht bt e h1 h2 h3 h4]
    simp
  · obtain ⟨k, hk⟩ := diffLoop_calls L cs []
      (.PlainOpen dir ::
        ((treeFromRef L repo headRef).1 ++ (treeFromRef L repo baseRef).1 ++ [.DiffTree]))
    refine ⟨(treeFromRef L repo headRef).1, (treeFromRef L repo baseRef).1, [.DiffTree], k, ?_,
      stage_treeFromRef L repo headRef, stage_treeFromRef L repo baseRef, Or.inr rfl,
      (fun h => by cases h),
      Or.inr (Or.inr ⟨resolutions_treeFromRef L repo headRef,
        resolutions_treeFromRef L repo baseRef⟩)⟩
    rw [diff_reaches_loop L ctx fs dir headRef baseRef repo ht bt cs h1 h2 h3 h4, hk]
    simp

/-- C10: `diff` performs its steps in the order open, resolve head, resolve base, diff,
classify and stops at the first that fails.  When opening fails, the error is the
open error and no other call is made, whatever the references.  When neither
reference resolves, the error is the head-reference error and the head reference is
the only one resolved.  When either reference fails to resolve, the tree diff is
not computed and no record is classified.  In every run the first call opens the
repository, the calls go through the stages in order, and the references resolved are
none, the head one, or the head one followed by the base one. -/
theorem diff_stops_at_first_failure (L : GoGit) (ctx : Context) (fs : FS)
    (dir headRef baseRef : String) :
    (∀ e, L.PlainOpen fs dir = .error e →
      (diff L ctx fs dir headRef baseRef).err =
        some (Errorf "error opening repository: " e) ∧
      (diff L ctx fs dir headRef baseRef).calls = [.PlainOpen dir]) ∧
    (∀ repo e1 e2, L.PlainOpen fs dir = .ok repo →
      (treeFromRef L repo headRef).2 = .error e1 →
      (treeFromRef L repo baseRef).2 = .error e2 →
      (diff L ctx fs dir headRef baseRef).err =
        some (Errorf "error getting tree from head ref: " e1) ∧
      resolutions (diff L ctx fs dir headRef baseRef).calls = [headRef]) ∧
    (∀ repo, L.PlainOpen fs dir = .ok repo →
      ((∃ e, (treeFromRef L repo headRef).2 = .error e) ∨
        (∃ e, (treeFromRef L repo baseRef).2 = .error e)) →
      Call.DiffTree ∉ (diff L ctx fs dir headRef baseRef).calls ∧
      Call.ChangeAction ∉ (diff L ctx fs dir headRef baseRef).calls) ∧
    ((diff L ctx fs dir headRef baseRef).calls.head? = some (.PlainOpen dir) ∧
      ((diff L ctx fs dir headRef baseRef).calls.map Call.stage).Pairwise (· ≤ ·) ∧
      (resolutions (diff L ctx fs dir headRef baseRef).calls = [] ∨
        resolutions (diff L ctx fs dir headRef baseRef).calls = [headRef] ∨
        resolutions (diff L ctx fs dir headRef baseRef).calls = [headRef, baseRef])) := by
  refine ⟨?_, ?_, ?_, ?_⟩
  · intro e h1
    rw [diff_open_error L ctx fs dir headRef baseRef e h1]
    exact ⟨rfl, rfl⟩
  · intro repo e1 e2 h1 h2 _
    rw [diff_head_error L ctx fs dir headRef baseRef repo e1 h1 h2]
    exact ⟨rfl, by
      show resolutions (.PlainOpen dir :: (treeFromRef L repo headRef).1) = [headRef]
      simp [resolutions, resolutions_treeFromRef]⟩
  · intro repo h1 hfail
    have hno : ∀ ref, Call.DiffTree ∉ (treeFromRef L repo ref).1 ∧
        Call.ChangeAction ∉ (treeFromRef L repo ref).1 := by
      intro ref
      constructor <;> intro hc <;> have := stage_treeFromRef L repo ref _ hc <;> cases this
    cases h2 : (treeFromRef L repo headRef).2 with
    | error e =>
      rw [diff_head_error L ctx fs dir headRef baseRef repo e h1 h2]
      simp [hno headRef]
    | ok ht =>
      rcases hfail with ⟨e, he⟩ | ⟨e, he⟩
      · rw [h2] at he
        cases he
      · rw [diff_base_error L ctx fs dir headRef baseRef repo ht e h1 h2 he]
        simp [hno headRef, hno baseRef]
  · obtain ⟨c1, c2, d, k, hcalls, hc1, hc2, hd, hk, hres⟩ :=
      diff_calls_shape L ctx fs dir headRef baseRef
    rw [hcalls]
    refine ⟨rfl, ?_, ?_⟩
    · simp only [List.map_cons, List.map_append, List.map_replicate, Call.stage]
      have h1 : ∀ n ∈ c1.map Call.stage, n = 1 := by
        intro n hn
        obtain ⟨c, hc, rfl⟩ := List.mem_map.mp hn
        exact hc1 c hc
      have h2 : ∀ n ∈ c2.map Call.stage, n = 1 := by
        intro n hn
        obtain ⟨c, hc, rfl⟩ := List.mem_map.mp hn
        exact hc2 c hc
      have hd2 : ∀ n ∈ d.map Call.stage, n = 2 := by
        intro n hn
        rcases hd with rfl | rfl
        · simp at hn
        · simpa [Call.stage] using hn
      have hp : ∀ (l : List Nat) (v : Nat), (∀ n ∈ l, n = v) → l.Pairwise (· ≤ ·) := by
        intro l v hl
        refine List.pairwise_iff_forall_sublist.mpr ?_
        intro a b hab
        have ha := hl a (hab.subset (by simp))
        have hb := hl b (hab.subset (by simp))
        omega
      rw [List.pairwise_cons]
      refine ⟨?_, ?_⟩
      · intro n hn
        exact Nat.zero_le n
      · rw [List.pairwise_append]
        refine ⟨?_, hp _ 3 (fun n hn => (List.mem_replicate.mp hn).2), ?_⟩
        · rw [List.pairwise_append]
          refine ⟨?_, hp _ 2 hd2, ?_⟩
          · rw [List.pairwise_append]
            refine ⟨hp _ 1 h1, hp _ 1 h2, ?_⟩
            intro a ha b hb
            rw [h1 a ha, h2 b hb]
          · intro a ha b hb
            rw [hd2 b hb]
            rcases List.mem_append.mp ha with ha | ha
            · rw [h1 a ha]
              omega
            · rw [h2 a ha]
              omega
        · intro a ha b hb
          rw [(List.mem_replicate.mp hb).2]
          rcases List.mem_append.mp ha with ha | ha
          · rcases List.mem_append.mp ha with ha | ha
            · rw [h1 a ha]
              omega
            · rw [h2 a ha]
              omega
          · rw [hd2 a ha]
            omega
    · have hdres : resolutions d = [] := by
        rcases hd with rfl | rfl <;> rfl
      simp only [resolutions, resolutions_append, resolutions_replicate, hdres,
        List.append_nil]
      rcases hres with ⟨r1, r2⟩ | ⟨r1, r2⟩ | ⟨r1, r2⟩ <;> simp [r1, r2]

/-- Witness for C10: a directory without a repository gives the open error after one
call; two references that do not resolve give the head-reference error with only
the head reference resolved, and no tree diff. -/
theorem diff_stops_at_first_failure_witness :
    ((diff gogit background fsAB "/x" "nope" "nada").err =
        some (Errorf "error opening repository: " (.base "repository does not exist")) ∧
      (diff gogit background fsAB "/x" "nope" "nada").calls = [.PlainOpen "/x"]) ∧
    ((diff gogit background fsAB "/repo" "nope" "nada").err =
        some (Errorf "error getting tree from head ref: " (.base "reference not found")) ∧
      resolutions (diff gogit background fsAB "/repo" "nope" "nada").calls = ["nope"]) ∧
    (Call.DiffTree ∉ (diff gogit background fsAB "/repo" "B" "nada").calls ∧
      Call.ChangeAction ∉ (diff gogit background fsAB "/repo" "B" "nada").calls) :=
  ⟨(diff_stops_at_first_failure gogit background fsAB "/x" "nope" "nada").1 _ rfl,
   (diff_stops_at_first_failure gogit background fsAB "/repo" "nope" "nada").2.1
      repoAB _ _ rfl rfl rfl,
   (diff_stops_at_first_failure gogit background fsAB "/repo" "B" "nada").2.2.1
      repoAB rfl (Or.inr ⟨_, rfl⟩)⟩

/-- The model's classification gives one of the three named actions only. -/
theorem modelled_action_values (c : Change) (a : Action) (h : Change.Action c = .ok a) :
    a = merkletrie.Insert ∨ a = merkletrie.Delete ∨ a = merkletrie.Modify := by
  unfold Change.Action at h
  split at h
  · cases h
  · split at h
    · cases h
      exact Or.inl rfl
    · split at h
      · cases h
        exact Or.inr (Or.inl rfl)
      · cases h
        exact Or.inr (Or.inr rfl)

/-- Every error `diff` returns is the error of one of its five steps, wrapped under the
step's context message. -/
theorem diff_err_is_step_error (L : GoGit) (ctx : Context) (fs : FS)
    (dir headRef baseRef : String) (x : GoError)
    (hx : (diff L ctx fs dir headRef baseRef).err = some x) :
    ∃ s e, x = Errorf (Step.context s) e := by
  rcases diff_cases L fs dir headRef baseRef with
    ⟨e, h1⟩ | ⟨repo, e, h1, h2⟩ | ⟨repo, ht, e, h1, h2, h3⟩ |
    ⟨repo, ht, bt, e, h1, h2, h3, h4⟩ | ⟨cs, hcs⟩
  · rw [diff_open_error L ctx fs dir headRef baseRef e h1] at hx
    exact ⟨.openRepo, e, (Option.some.inj hx).symm⟩
  · rw [diff_head_error L ctx fs dir headRef baseRef repo e h1 h2] at hx
    exact ⟨.resolveHead, e, (Option.some.inj hx).symm⟩
  · rw [diff_base_error L ctx fs dir headRef baseRef repo ht e h1 h2 h3] at hx
    exact ⟨.resolveBase, e, (Option.some.inj hx).symm⟩
  · rw [diff_difftree_error L ctx fs dir headRef baseRef repo ht bt e h1 h2 h3 h4] at hx
    exact ⟨.diffTrees, e, (Option.some.inj hx).symm⟩
  · obtain ⟨calls, heq⟩ := diff_of_treeDiffReturns L ctx fs dir headRef baseRef cs hcs
    rw [heq] at hx
    rcases diffLoop_cases L cs with hall | ⟨pre, ch, post, e, hsplit, hpre, hch⟩
    · obtain ⟨out, _, _, hrun⟩ := diffLoop_all_ok L cs [] calls hall
      rw [hrun] at hx
      cases hx
    · rw [hsplit, diffLoop_first_failure L pre ch post e [] calls hpre hch] at hx
      exact ⟨.classify, e, (Option.some.inj hx).symm⟩

/-- C9, as amended: `diff` never consults the execution context: its result is the same
for any two contexts.  `Files` hands the context to the export step only: when the
export fails `Files` returns that error, and when it succeeds `Files` returns what
`diff` returns on the exported directory, for any context whatever. -/
theorem diff_does_not_consult_context (D : Dagger) (L : GoGit) (ctx1 ctx2 : Context)
    (fs : FS) (dir : String) (source : Directory) (headRef baseRef : String) :
    diff L ctx1 fs dir headRef baseRef = diff L ctx2 fs dir headRef baseRef ∧
    (∀ e, D.Export ctx1 source "/repo" fs = .error e →
      Files D L ctx1 fs source headRef baseRef = ([], some e)) ∧
    (∀ p fs1, D.Export ctx1 source "/repo" fs = .ok (p, fs1) →
      Files D L ctx1 fs source headRef baseRef =
        ((diff L ctx2 fs1 "/repo" headRef baseRef).files,
          (diff L ctx2 fs1 "/repo" headRef baseRef).err)) :=
  ⟨rfl, fun e hx => Files_export_error D L ctx1 fs source headRef baseRef e hx,
    fun p fs1 hx => Files_export_ok D L ctx1 fs source headRef baseRef p fs1 hx⟩

/-- Witness for C9 as amended: an export under a live context, then the same result as
`diff` under a canceled one; and an export that fails under a canceled context. -/
theorem diff_does_not_consult_context_witness :
    Files dagger gogit background [] ⟨some repoAB⟩ "B" "A" =
      ((diff gogit canceled fsAB "/repo" "B" "A").files,
        (diff gogit canceled fsAB "/repo" "B" "A").err) ∧
    Files dagger gogit canceled [] ⟨some repoAB⟩ "B" "A" =
      ([], some (.base "context canceled")) :=
  ⟨(diff_does_not_consult_context dagger gogit background canceled [] "/repo"
      ⟨some repoAB⟩ "B" "A").2.2 "/repo" fsAB rfl,
   (diff_does_not_consult_context dagger gogit canceled background [] "/repo"
      ⟨some repoAB⟩ "B" "A").2.1 _ rfl⟩

/-- Counterexample to C9 as stated: called with a context that is already canceled,
`diff` opens the repository, resolves both references, diffs the trees and returns
the three paths of the scenario, with no error. -/
theorem canceled_context_still_lists_paths :
    canceled.Err = some (.base "context canceled") ∧
    (diff gogit canceled fsAB "/repo" "B" "A").err = none ∧
    (diff gogit canceled fsAB "/repo" "B" "A").files = ["src/a.go", "src/b.go", "README.md"] ∧
    (diff gogit canceled fsAB "/repo" "B" "A").calls =
      [.PlainOpen "/repo", .ResolveRevision "B", .CommitObject 2, .CommitTree,
        .ResolveRevision "A", .CommitObject 1, .CommitTree, .DiffTree,
        .ChangeAction, .ChangeAction, .ChangeAction] := by
  decide

/-! ## Lemmas about the reference model -/

theorem find_name_of_mem (l : List TreeEntry) (nd : (l.map (fun e => e.Name)).Nodup)
    (e : TreeEntry) (he : e ∈ l) :
    l.find? (fun x => decide (x.Name = e.Name)) = some e := by
  induction l with
  | nil => cases he
  | cons x xs ih =>
    rw [List.map_cons, List.nodup_cons] at nd
    rw [List.find?_cons]
    rcases List.mem_cons.mp he with rfl | hmem
    · simp
    · have hne : x.Name ≠ e.Name := by
        intro heq
        apply nd.1
        rw [heq]
        exact List.mem_map_of_mem (fun e => e.Name) hmem
      simp [hne, ih nd.2 hmem]

theorem lookup_of_mem (t : Tree) (e : TreeEntry) (he : e ∈ t.Entries) :
    t.lookup e.Name = some e :=
  find_name_of_mem t.Entries t.unique e he

theorem lookup_some (t : Tree) (p : String) (e : TreeEntry) (h : t.lookup p = some e) :
    e ∈ t.Entries ∧ e.Name = p :=
  ⟨List.mem_of_find?_eq_some h, by simpa using List.find?_some h⟩

theorem lookup_none (t : Tree) (p : String) (h : t.lookup p = none) :
    ∀ e ∈ t.Entries, e.Name ≠ p := by
  intro e he
  have := List.find?_eq_none.mp h e he
  simpa using this

theorem has_iff (t : Tree) (p : String) : t.has p ↔ ∃ e, t.lookup p = some e := by
  unfold Tree.has
  exact Option.isSome_iff_exists

theorem not_has_iff (t : Tree) (p : String) : ¬ t.has p ↔ t.lookup p = none := by
  unfold Tree.has
  cases t.lookup p <;> simp

theorem changeEntry_ne_empty (t : Tree) (e : TreeEntry) : changeEntry t e ≠ ChangeEntry.empty := by
  intro h
  have := congrArg ChangeEntry.Tree h
  simp [changeEntry, ChangeEntry.empty] at this

/-- The records of the model's tree diff are of three forms. -/
theorem mem_DiffTree (a b : Tree) (ch : Change) :
    ch ∈ DiffTree a b ↔
      (∃ e ∈ a.Entries, b.lookup e.Name = none ∧ ch = ⟨changeEntry a e, ChangeEntry.empty⟩) ∨
      (∃ e ∈ a.Entries, ∃ e2, b.lookup e.Name = some e2 ∧
        ¬ (e.Hash = e2.Hash ∧ e.Mode = e2.Mode) ∧ ch = ⟨changeEntry a e, changeEntry b e2⟩) ∨
      (∃ e ∈ b.Entries, a.lookup e.Name = none ∧ ch = ⟨ChangeEntry.empty, changeEntry b e⟩) := by
  unfold DiffTree
  rw [List.mem_append, List.mem_filterMap, List.mem_filterMap]
  constructor
  · rintro (⟨e, he, hg⟩ | ⟨e, he, hg⟩)
    · split at hg
      · rename_i hl
        exact Or.inl ⟨e, he, hl, (Option.some.inj hg).symm⟩
      · rename_i e2 hl
        split at hg
        · cases hg
        · rename_i hne
          exact Or.inr (Or.inl ⟨e, he, e2, hl, hne, (Option.some.inj hg).symm⟩)
    · split at hg
      · rename_i hl
        exact Or.inr (Or.inr ⟨e, he, hl, (Option.some.inj hg).symm⟩)
      · cases hg
  · rintro (⟨e, he, hl, rfl⟩ | ⟨e, he, e2, hl, hne, rfl⟩ | ⟨e, he, hl, rfl⟩)
    · exact Or.inl ⟨e, he, by rw [hl]⟩
    · exact Or.inl ⟨e, he, by rw [hl]; simp only [if_neg hne]⟩
    · exact Or.inr ⟨e, he, by rw [hl]⟩

theorem action_deletion (a : Tree) (e : TreeEntry) :
    Change.Action ⟨changeEntry a e, ChangeEntry.empty⟩ = .ok merkletrie.Delete := by
  simp [Change.Action, changeEntry_ne_empty]

theorem action_insertion (b : Tree) (e : TreeEntry) :
    Change.Action ⟨ChangeEntry.empty, changeEntry b e⟩ = .ok merkletrie.Insert := by
  simp [Change.Action, changeEntry_ne_empty]

theorem action_modification (a b : Tree) (e e2 : TreeEntry) :
    Change.Action ⟨changeEntry a e, changeEntry b e2⟩ = .ok merkletrie.Modify := by
  simp [Change.Action, changeEntry_ne_empty]

theorem path_deletion (a : Tree) (e : TreeEntry) :
    Change.path ⟨changeEntry a e, ChangeEntry.empty⟩ = e.Name := by
  unfold Change.path
  rw [if_neg (changeEntry_ne_empty a e)]
  rfl

theorem path_modification (a b : Tree) (e e2 : TreeEntry) :
    Change.path ⟨changeEntry a e, changeEntry b e2⟩ = e.Name := by
  unfold Change.path
  rw [if_neg (changeEntry_ne_empty a e)]
  rfl

theorem path_insertion (b : Tree) (e : TreeEntry) :
    Change.path ⟨ChangeEntry.empty, changeEntry b e⟩ = e.Name := by
  unfold Change.path
  rw [if_pos rfl]
  rfl

/-- What `diff` emits for a record of the model's tree diff is the path of the entry the
record carries. -/
theorem model_record_file (a b : Tree) (ch : Change) (h : ch ∈ DiffTree a b) :
    ∃ act, gogit.ChangeAction ch = .ok act ∧ fileOf act ch = ch.path := by
  rcases (mem_DiffTree a b ch).mp h with
    ⟨e, _, _, rfl⟩ | ⟨e, _, e2, hl, _, rfl⟩ | ⟨e, _, _, rfl⟩
  · refine ⟨merkletrie.Delete, action_deletion a e, ?_⟩
    rw [path_deletion]
    simp [fileOf, merkletrie.Delete, merkletrie.Insert, merkletrie.Modify, changeEntry]
  · refine ⟨merkletrie.Modify, action_modification a b e e2, ?_⟩
    rw [path_modification]
    simp [fileOf, merkletrie.Insert, merkletrie.Modify, changeEntry,
      (lookup_some b e.Name e2 hl).2]
  · refine ⟨merkletrie.Insert, action_insertion b e, ?_⟩
    rw [path_insertion]
    simp [fileOf, changeEntry]

theorem diffLoop_map (L : GoGit) (f : Change → String) (cs : List Change)
    (files : List String) (calls : List Call)
    (h : ∀ ch ∈ cs, ∃ act, L.ChangeAction ch = .ok act ∧ fileOf act ch = f ch) :
    (diffLoop L cs files calls).files = files ++ cs.map f ∧
    (diffLoop L cs files calls).err = none := by
  induction cs generalizing files calls with
  | nil => simp [diffLoop]
  | cons ch rest ih =>
    obtain ⟨act, hact, hf⟩ := h ch (List.mem_cons_self ch rest)
    have := ih (files ++ [fileOf act ch]) (calls ++ [.ChangeAction])
      (fun c hc => h c (List.mem_cons_of_mem ch hc))
    rw [hf] at this
    simp [diffLoop, hact, this, hf]

/-- On the model, `diff` succeeds once both references resolve, and returns the paths of
the records of the tree diff taken from the head tree to the base tree. -/
theorem model_diff_files (ctx : Context) (fs : FS) (dir headRef baseRef : String)
    (repo : Repository) (headTree baseTree : Tree)
    (h1 : gogit.PlainOpen fs dir = .ok repo)
    (h2 : (treeFromRef gogit repo headRef).2 = .ok headTree)
    (h3 : (treeFromRef gogit repo baseRef).2 = .ok baseTree) :
    (diff gogit ctx fs dir headRef baseRef).files =
      (DiffTree headTree baseTree).map Change.path ∧
    (diff gogit ctx fs dir headRef baseRef).err = none := by
  rw [diff_reaches_loop gogit ctx fs dir headRef baseRef repo headTree baseTree
    (DiffTree headTree baseTree) h1 h2 h3 rfl]
  simpa using diffLoop_map gogit Change.path (DiffTree headTree baseTree) [] _
    (model_record_file headTree baseTree)

theorem mem_model_paths (a b : Tree) (p : String) :
    p ∈ (DiffTree a b).map Change.path ↔
      (∃ e ∈ a.Entries, e.Name = p ∧ b.lookup p = none) ∨
      (∃ e ∈ a.Entries, e.Name = p ∧ ∃ e2, b.lookup p = some e2 ∧
        ¬ (e.Hash = e2.Hash ∧ e.Mode = e2.Mode)) ∨
      (∃ e ∈ b.Entries, e.Name = p ∧ a.lookup p = none) := by
  rw [List.mem_map]
  constructor
  · rintro ⟨ch, hch, rfl⟩
    rcases (mem_DiffTree a b ch).mp hch with
      ⟨e, he, hl, rfl⟩ | ⟨e, he, e2, hl, hne, rfl⟩ | ⟨e, he, hl, rfl⟩
    · rw [path_deletion]
      exact Or.inl ⟨e, he, rfl, hl⟩
    · rw [path_modification]
      exact Or.inr (Or.inl ⟨e, he, rfl, e2, hl, hne⟩)
    · rw [path_insertion]
      exact Or.inr (Or.inr ⟨e, he, rfl, hl⟩)
  · rintro (⟨e, he, rfl, hl⟩ | ⟨e, he, rfl, e2, hl, hne⟩ | ⟨e, he, rfl, hl⟩)
    · exact ⟨⟨changeEntry a e, ChangeEntry.empty⟩,
        (mem_DiffTree a b _).mpr (Or.inl ⟨e, he, hl, rfl⟩), path_deletion a e⟩
    · exact ⟨⟨changeEntry a e, changeEntry b e2⟩,
        (mem_DiffTree a b _).mpr (Or.inr (Or.inl ⟨e, he, e2, hl, hne, rfl⟩)),
        path_modification a b e e2⟩
    · exact ⟨⟨ChangeEntry.empty, changeEntry b e⟩,
        (mem_DiffTree a b _).mpr (Or.inr (Or.inr ⟨e, he, hl, rfl⟩)), path_insertion b e⟩

theorem filterMap_paths_sublist (g : TreeEntry → Option Change)
    (hg : ∀ e ch, g e = some ch → ch.path = e.Name) (l : List TreeEntry) :
    ((l.filterMap g).map Change.path).Sublist (l.map (fun e => e.Name)) := by
  induction l with
  | nil => exact List.Sublist.slnil
  | cons x xs ih =>
    rw [List.filterMap_cons]
    cases hx : g x with
    | none => exact List.Sublist.cons _ ih
    | some ch =>
      simp only [List.map_cons]
      rw [hg x ch hx]
      exact List.Sublist.cons₂ _ ih

theorem model_paths_nodup (a b : Tree) :
    ((DiffTree a b).map Change.path).Nodup := by
  unfold DiffTree
  rw [List.map_append]
  have s1 := filterMap_paths_sublist (fun e =>
      match b.lookup e.Name with
      | none => some ⟨changeEntry a e, ChangeEntry.empty⟩
      | some e2 =>
        if e.Hash = e2.Hash ∧ e.Mode = e2.Mode then none
        else some ⟨changeEntry a e, changeEntry b e2⟩) (by
      intro e ch h
      dsimp only at h
      split at h
      · cases h
        exact path_deletion a e
      · split at h
        · cases h
        · cases h
          exact path_modification a b e _) a.Entries
  have s2 := filterMap_paths_sublist (fun e =>
      match a.lookup e.Name with
      | none => some ⟨ChangeEntry.empty, changeEntry b e⟩
      | some _ => none) (by
      intro e ch h
      dsimp only at h
      split at h
      · cases h
        exact path_insertion b e
      · cases h) b.Entries
  refine List.Nodup.append (s1.nodup a.unique) (s2.nodup b.unique) ?_
  intro p hp1 hp2
  have hmem : p ∈ a.Entries.map (fun e => e.Name) := s1.subset hp1
  obtain ⟨e, he, rfl⟩ := List.mem_map.mp hmem
  rw [List.mem_map] at hp2
  obtain ⟨ch, hch, hpath⟩ := hp2
  rw [List.mem_filterMap] at hch
  obtain ⟨e2, he2, hg⟩ := hch
  split at hg
  · rename_i hl
    cases hg
    rw [path_insertion] at hpath
    exact lookup_none a e2.Name hl e he hpath.symm
  · cases hg

theorem model_diff_self (t : Tree) : DiffTree t t = [] := by
  unfold DiffTree
  rw [List.append_eq_nil, List.filterMap_eq_nil_iff, List.filterMap_eq_nil_iff]
  constructor
  · intro e he
    rw [lookup_of_mem t e he]
    simp
  · intro e he
    rw [lookup_of_mem t e he]

/-! ## The claims that depend on the tree diff -/

/-- C1, as amended: on the reference model, when both references resolve to a commit
tree, `diff` succeeds, and its list contains a path exactly once if the path
is in only one of the two trees, or is in both with a different content hash or a
different file mode; it does not contain a path that is in both trees with the same
content hash and the same file mode, nor a path that is in neither tree. -/
theorem diff_lists_each_differing_path_once (ctx : Context) (fs : FS)
    (dir headRef baseRef : String) (repo : Repository) (headTree baseTree : Tree)
    (h1 : gogit.PlainOpen fs dir = .ok repo)
    (h2 : (treeFromRef gogit repo headRef).2 = .ok headTree)
    (h3 : (treeFromRef gogit repo baseRef).2 = .ok baseTree) (p : String) :
    (diff gogit ctx fs dir headRef baseRef).err = none ∧
    (((headTree.has p ∧ ¬ baseTree.has p) ∨ (¬ headTree.has p ∧ baseTree.has p)) →
      (diff gogit ctx fs dir headRef baseRef).files.count p = 1) ∧
    (∀ x y, headTree.lookup p = some x → baseTree.lookup p = some y →
      (x.Hash ≠ y.Hash ∨ x.Mode ≠ y.Mode) →
      (diff gogit ctx fs dir headRef baseRef).files.count p = 1) ∧
    (∀ x y, headTree.lookup p = some x → baseTree.lookup p = some y →
      x.Hash = y.Hash → x.Mode = y.Mode →
      p ∉ (diff gogit ctx fs dir headRef baseRef).files) ∧
    (¬ headTree.has p → ¬ baseTree.has p →
      p ∉ (diff gogit ctx fs dir headRef baseRef).files) := by
  obtain ⟨hfiles, herr⟩ :=
    model_diff_files ctx fs dir headRef baseRef repo headTree baseTree h1 h2 h3
  rw [hfiles]
  have hnd := model_paths_nodup headTree baseTree
  refine ⟨herr, ?_, ?_, ?_, ?_⟩
  · intro h
    apply List.count_eq_one_of_mem hnd
    rw [mem_model_paths]
    rcases h with ⟨hh, hb⟩ | ⟨hh, hb⟩
    · obtain ⟨x, hx⟩ := (has_iff headTree p).mp hh
      obtain ⟨hmem, hname⟩ := lookup_some headTree p x hx
      exact Or.inl ⟨x, hmem, hname, (not_has_iff baseTree p).mp hb⟩
    · obtain ⟨y, hy⟩ := (has_iff baseTree p).mp hb
      obtain ⟨hmem, hname⟩ := lookup_some baseTree p y hy
      exact Or.inr (Or.inr ⟨y, hmem, hname, (not_has_iff headTree p).mp hh⟩)
  · intro x y hx hy hdiff
    apply List.count_eq_one_of_mem hnd
    rw [mem_model_paths]
    obtain ⟨hmem, hname⟩ := lookup_some headTree p x hx
    refine Or.inr (Or.inl ⟨x, hmem, hname, y, hy, ?_⟩)
    rintro ⟨e1, e2⟩
    rcases hdiff with hd | hd
    · exact hd e1
    · exact hd e2
  · intro x y hx hy hhash hmode hp
    rw [mem_model_paths] at hp
    rcases hp with ⟨e, _, _, hl⟩ | ⟨e, he, hname, e2, hl, hne⟩ | ⟨e, _, _, hl⟩
    · rw [hl] at hy
      cases hy
    · have hxe : headTree.lookup p = some e := by
        rw [← hname]
        exact lookup_of_mem headTree e he
      rw [hx] at hxe
      rw [hy] at hl
      cases hxe
      cases hl
      exact hne ⟨hhash, hmode⟩
    · rw [hl] at hx
      cases hx
  · intro hh hb hp
    rw [mem_model_paths] at hp
    have hnh := (not_has_iff headTree p).mp hh
    have hnb := (not_has_iff baseTree p).mp hb
    rcases hp with ⟨e, he, hname, _⟩ | ⟨e, he, hname, _⟩ | ⟨e, he, hname, _⟩
    · exact lookup_none headTree p hnh e he hname
    · exact lookup_none headTree p hnh e he hname
    · exact lookup_none baseTree p hnb e he hname

/-- Witness for C1 as amended, on the spec's scenario (head B, base A): `README.md` is in
the base tree only, `src/a.go` is in both with different hashes, `src/b.go` is in the
head tree only; each is listed once and the list has three entries. -/
theorem diff_lists_each_differing_path_once_witness :
    (diff gogit background fsAB "/repo" "B" "A").files.count "README.md" = 1 ∧
    (diff gogit background fsAB "/repo" "B" "A").files.count "src/a.go" = 1 ∧
    (diff gogit background fsAB "/repo" "B" "A").files.count "src/b.go" = 1 ∧
    (diff gogit background fsAB "/repo" "B" "A").files.length = 3 :=
  ⟨(diff_lists_each_differing_path_once background fsAB "/repo" "B" "A" repoAB treeB treeA
      rfl rfl rfl "README.md").2.1 (Or.inr ⟨by decide, by decide⟩),
   (diff_lists_each_differing_path_once background fsAB "/repo" "B" "A" repoAB treeB treeA
      rfl rfl rfl "src/a.go").2.2.1
      ⟨"src/a.go", 0o100644, 22⟩ ⟨"src/a.go", 0o100644, 21⟩ rfl rfl (Or.inl (by decide)),
   (diff_lists_each_differing_path_once background fsAB "/repo" "B" "A" repoAB treeB treeA
      rfl rfl rfl "src/b.go").2.1 (Or.inl ⟨by decide, by decide⟩),
   by decide⟩

/-- Counterexample to C1 as stated: `run.sh` is in both trees with the same content hash
and differs in file mode only; the list contains it. -/
theorem same_hash_other_mode_is_listed :
    treeExec.lookup "run.sh" = some ⟨"run.sh", 0o100755, 5⟩ ∧
    treePlain.lookup "run.sh" = some ⟨"run.sh", 0o100644, 5⟩ ∧
    (treeFromRef gogit repoMode "HEAD").2 = .ok treeExec ∧
    (treeFromRef gogit repoMode "main").2 = .ok treePlain ∧
    (diff gogit background fsMode "/repo" "HEAD" "main").err = none ∧
    (diff gogit background fsMode "/repo" "HEAD" "main").files = ["run.sh"] :=
  ⟨rfl, rfl, rfl, rfl, by decide, by decide⟩

/-- C7, as amended: `diff` computes the tree diff as the change from the head tree to the
base tree.  On the reference model, the records `diff` classifies are those of
`DiffTree headTree baseTree`; a path that is in the head tree only has a record,
every record that carries it has no "to" entry and is a deletion, whose path `diff`
takes from the "from" side; a path that is in the base tree only has a record,
every record that carries it has no "from" entry and is an insertion, whose path
`diff` takes from the "to" side; in both cases the path is in the result. -/
theorem diff_runs_from_head_to_base (ctx : Context) (fs : FS)
    (dir headRef baseRef : String) (repo : Repository) (headTree baseTree : Tree)
    (h1 : gogit.PlainOpen fs dir = .ok repo)
    (h2 : (treeFromRef gogit repo headRef).2 = .ok headTree)
    (h3 : (treeFromRef gogit repo baseRef).2 = .ok baseTree) (p : String) :
    treeDiffReturns gogit fs dir headRef baseRef (DiffTree headTree baseTree) ∧
    (headTree.has p → ¬ baseTree.has p →
      (∃ ch ∈ DiffTree headTree baseTree, ch.From ≠ ChangeEntry.empty ∧ ch.From.Name = p) ∧
      (∀ ch ∈ DiffTree headTree baseTree,
        ((ch.From ≠ ChangeEntry.empty ∧ ch.From.Name = p) ∨
          (ch.To ≠ ChangeEntry.empty ∧ ch.To.Name = p)) →
        ch.To = ChangeEntry.empty ∧ gogit.ChangeAction ch = .ok merkletrie.Delete ∧
        fileOf merkletrie.Delete ch = ch.From.Name ∧ ch.From.Name = p) ∧
      p ∈ (diff gogit ctx fs dir headRef baseRef).files) ∧
    (¬ headTree.has p → baseTree.has p →
      (∃ ch ∈ DiffTree headTree baseTree, ch.To ≠ ChangeEntry.empty ∧ ch.To.Name = p) ∧
      (∀ ch ∈ DiffTree headTree baseTree,
        ((ch.From ≠ ChangeEntry.empty ∧ ch.From.Name = p) ∨
          (ch.To ≠ ChangeEntry.empty ∧ ch.To.Name = p)) →
        ch.From = ChangeEntry.empty ∧ gogit.ChangeAction ch = .ok merkletrie.Insert ∧
        fileOf merkletrie.Insert ch = ch.To.Name ∧ ch.To.Name = p) ∧
      p ∈ (diff gogit ctx fs dir headRef baseRef).files) := by
  obtain ⟨hfiles, _⟩ :=
    model_diff_files ctx fs dir headRef baseRef repo headTree baseTree h1 h2 h3
  rw [hfiles]
  have hDel : fileOf merkletrie.Delete = fun ch => ch.From.Name := by
    funext ch
    simp [fileOf, merkletrie.Delete, merkletrie.Insert, merkletrie.Modify]
  have hIns : fileOf merkletrie.Insert = fun ch => ch.To.Name := by
    funext ch
    simp [fileOf]
  refine ⟨⟨repo, headTree, baseTree, h1, h2, h3, rfl⟩, ?_, ?_⟩
  · intro hh hb
    obtain ⟨x, hx⟩ := (has_iff headTree p).mp hh
    obtain ⟨hmem, hname⟩ := lookup_some headTree p x hx
    have hnb := (not_has_iff baseTree p).mp hb
    have hrec : (⟨changeEntry headTree x, ChangeEntry.empty⟩ : Change) ∈
        DiffTree headTree baseTree :=
      (mem_DiffTree headTree baseTree _).mpr (Or.inl ⟨x, hmem, by rw [hname]; exact hnb, rfl⟩)
    refine ⟨⟨_, hrec, changeEntry_ne_empty headTree x, hname⟩, ?_, ?_⟩
    · intro ch hch hcarry
      rcases (mem_DiffTree headTree baseTree ch).mp hch with
        ⟨e, he, hl, rfl⟩ | ⟨e, he, e2, hl, hne, rfl⟩ | ⟨e, he, hl, rfl⟩
      · rcases hcarry with ⟨_, hn⟩ | ⟨hn, _⟩
        · exact ⟨rfl, action_deletion headTree e, by rw [hDel], hn⟩
        · exact absurd rfl hn
      · exfalso
        obtain ⟨hmem2, hname2⟩ := lookup_some baseTree e.Name e2 hl
        rcases hcarry with ⟨_, hn⟩ | ⟨_, hn⟩
        · have hn2 : e.Name = p := hn
          rw [hn2] at hl
          rw [hl] at hnb
          cases hnb
        · have hn2 : e2.Name = p := hn
          exact lookup_none baseTree p hnb e2 hmem2 hn2
      · exfalso
        rcases hcarry with ⟨hn, _⟩ | ⟨_, hn⟩
        · exact hn rfl
        · have hn2 : e.Name = p := hn
          exact lookup_none baseTree p hnb e he hn2
    · rw [mem_model_paths]
      exact Or.inl ⟨x, hmem, hname, hnb⟩
  · intro hh hb
    obtain ⟨y, hy⟩ := (has_iff baseTree p).mp hb
    obtain ⟨hmem, hname⟩ := lookup_some baseTree p y hy
    have hnh := (not_has_iff headTree p).mp hh
    have hrec : (⟨ChangeEntry.empty, changeEntry baseTree y⟩ : Change) ∈
        DiffTree headTree baseTree :=
      (mem_DiffTree headTree baseTree _).mpr
        (Or.inr (Or.inr ⟨y, hmem, by rw [hname]; exact hnh, rfl⟩))
    refine ⟨⟨_, hrec, changeEntry_ne_empty baseTree y, hname⟩, ?_, ?_⟩
    · intro ch hch hcarry
      rcases (mem_DiffTree headTree baseTree ch).mp hch with
        ⟨e, he, hl, rfl⟩ | ⟨e, he, e2, hl, hne, rfl⟩ | ⟨e, he, hl, rfl⟩
      · exfalso
        rcases hcarry with ⟨_, hn⟩ | ⟨hn, _⟩
        · have hn2 : e.Name = p := hn
          exact lookup_none headTree p hnh e he hn2
        · exact hn rfl
      · exfalso
        obtain ⟨_, hname2⟩ := lookup_some baseTree e.Name e2 hl
        rcases hcarry with ⟨_, hn⟩ | ⟨_, hn⟩
        · have hn2 : e.Name = p := hn
          exact lookup_none headTree p hnh e he hn2
        · have hn2 : e2.Name = p := hn
          exact lookup_none headTree p hnh e he (hname2.symm.trans hn2)
      · rcases hcarry with ⟨hn, _⟩ | ⟨_, hn⟩
        · exact absurd rfl hn
        · exact ⟨rfl, action_insertion baseTree e, by rw [hIns], hn⟩
    · rw [mem_model_paths]
      exact Or.inr (Or.inr ⟨y, hmem, hname, hnh⟩)

/-- Witness for C7 as amended, on the spec's scenario (head B, base A): `src/b.go` is in
the head tree only and `README.md` is in the base tree only; both are in the result. -/
theorem diff_runs_from_head_to_base_witness :
    "src/b.go" ∈ (diff gogit background fsAB "/repo" "B" "A").files ∧
    "README.md" ∈ (diff gogit background fsAB "/repo" "B" "A").files :=
  ⟨((diff_runs_from_head_to_base background fsAB "/repo" "B" "A" repoAB treeB treeA
      rfl rfl rfl "src/b.go").2.1 (by decide) (by decide)).2.2,
   ((diff_runs_from_head_to_base background fsAB "/repo" "B" "A" repoAB treeB treeA
      rfl rfl rfl "README.md").2.2 (by decide) (by decide)).2.2⟩

/-- Counterexample to C7 as stated, on the spec's scenario (head B, base A): `src/b.go` is
in the head tree only, and the record `diff` classifies for it has no "to" entry and
is a deletion, not an insertion; `README.md` is in the base tree only, and its
record has no "from" entry and is an insertion, not a deletion. -/
theorem head_only_path_is_a_deletion :
    treeB.has "src/b.go" ∧ ¬ treeA.has "src/b.go" ∧
    treeDiffReturns gogit fsAB "/repo" "B" "A" (DiffTree treeB treeA) ∧
    (DiffTree treeB treeA)[1]? = some deletion ∧
    deletion.From.Name = "src/b.go" ∧ deletion.To = ChangeEntry.empty ∧
    gogit.ChangeAction deletion = .ok merkletrie.Delete ∧
    merkletrie.Delete ≠ merkletrie.Insert ∧
    ¬ treeB.has "README.md" ∧ treeA.has "README.md" ∧
    (DiffTree treeB treeA)[2]? =
      some ⟨ChangeEntry.empty, changeEntry treeA ⟨"README.md", 0o100644, 11⟩⟩ ∧
    gogit.ChangeAction ⟨ChangeEntry.empty, changeEntry treeA ⟨"README.md", 0o100644, 11⟩⟩ =
      .ok merkletrie.Insert :=
  ⟨by decide, by decide, ⟨repoAB, treeB, treeA, rfl, rfl, rfl, rfl⟩, by decide, rfl, rfl, rfl,
    by decide, by decide, by decide, by decide, rfl⟩

/-- C8: on the reference model, for a reference that resolves to a commit with a tree,
`diff` of the reference against itself succeeds and returns the empty list. -/
theorem diff_of_a_reference_against_itself (ctx : Context) (fs : FS) (dir ref : String)
    (repo : Repository) (t : Tree)
    (h1 : gogit.PlainOpen fs dir = .ok repo)
    (h2 : (treeFromRef gogit repo ref).2 = .ok t) :
    (diff gogit ctx fs dir ref ref).err = none ∧ (diff gogit ctx fs dir ref ref).files = [] := by
  obtain ⟨hfiles, herr⟩ := model_diff_files ctx fs dir ref ref repo t t h1 h2 h2
  rw [hfiles, model_diff_self t]
  exact ⟨herr, rfl⟩

/-- Witness for C8: commit B of the spec's scenario against itself. -/
theorem diff_of_a_reference_against_itself_witness :
    (diff gogit background fsAB "/repo" "B" "B").err = none ∧
    (diff gogit background fsAB "/repo" "B" "B").files = [] :=
  diff_of_a_reference_against_itself background fsAB "/repo" "B" repoAB treeB rfl rfl

end GitFilesChanged
